import Mathlib

/-!
Shallow embedding of the tree container of the cxx repository
(src/tree.h, src/unnamed/part_000, src/unnamed/part_001).

A node holds a payload, a parent back-reference and a vector of child
nodes stored by value; the tree holds an optional root.  The C++ smart
pointers copy nodes on insertion, so the value-semantics rendering below
(children as a list of node values, the parent as an optional node value)
is faithful.  The element type only has to offer an equality test and an
inequality test returning bool; the two tests are modelled as two
independent functions, exactly as the __is_cmp concept requires.
-/

namespace Cxx

/-- A tree node: payload, parent back-reference and list of children,
mirroring the fields _data, _parent and _children of the C++ node class. -/
inductive Node (T : Type) where
| mk (data : T) (parent : Option (Node T)) (children : List (Node T))

/-- Payload accessor, mirroring node::data(). -/
def Node.data {T : Type} : Node T → T
| .mk d _ _ => d

/-- Parent accessor, mirroring node::parent(). -/
def Node.parent {T : Type} : Node T → Option (Node T)
| .mk _ p _ => p

/-- Children accessor, mirroring node::children(). -/
def Node.children {T : Type} : Node T → List (Node T)
| .mk _ _ cs => cs

/-- Equality of nodes, mirroring node::operator== from part_000 and
_node::operator== from tree.h: it compares only the payloads with the
element equality test. -/
def nodeEq {T : Type} (eqT : T → T → Bool) (a b : Node T) : Bool :=
  eqT a.data b.data

/-- Inequality of nodes as written in part_000: it forwards to the
element INEQUALITY test (this->_data != o._data). -/
def nodeNe {T : Type} (neqT : T → T → Bool) (a b : Node T) : Bool :=
  neqT a.data b.data

/-- Inequality of nodes as written in the tree.h draft: the literal
negation of the payload equality test (!(a._data == b._data)). -/
def nodeNeH {T : Type} (eqT : T → T → Bool) (a b : Node T) : Bool :=
  !(eqT a.data b.data)

/-- Appending a child, mirroring node::append: the child's parent field is
set to (a copy of) this node, then the child is pushed onto the back of
the children vector.  There is no cycle or ancestry check in the source. -/
def Node.append {T : Type} (a child : Node T) : Node T :=
  .mk a.data a.parent (a.children ++ [.mk child.data (some a) child.children])

/-- Removing a child, mirroring node::remove, which calls
_children.remove(child).  The only remove(value) member in the standard
containers (std::list::remove) erases EVERY element comparing equal to
the argument — node equality compares payloads — and returns nothing. -/
def Node.removeChild {T : Type} (eqT : T → T → Bool) (a child : Node T) : Node T :=
  .mk a.data a.parent (a.children.filter (fun c => !(nodeEq eqT c child)))

/-- Index of a child, mirroring node::index, which returns
std::find(_children.begin(), _children.end(), child) as an unsigned
position: the position of the first child comparing equal to the
argument, or the number of children (the end position) when none does. -/
def Node.index {T : Type} (eqT : T → T → Bool) (a child : Node T) : Nat :=
  a.children.findIdx (fun c => nodeEq eqT c child)

/-- Positional child access, mirroring node::operator[]: out-of-range
indices throw std::out_of_range, in-range indices return the child. -/
def Node.childAt {T : Type} (a : Node T) (i : Nat) : Except String (Node T) :=
  if h : a.children.length ≤ i then .error "index out of range"
  else .ok (a.children.get ⟨i, by omega⟩)

/-- Leaf test, mirroring node::is_leaf. -/
def Node.isLeaf {T : Type} (a : Node T) : Bool :=
  a.children.isEmpty

/-- Root test, mirroring node::is_root. -/
def Node.isRoot {T : Type} (a : Node T) : Bool :=
  a.parent.isNone

/-- The tree container: an optional root node.  The part_001 draft stores
the root as a shared pointer that the default constructor sets to null;
tree.h guards its search with a null check on the root. -/
structure Tree (T : Type) where
  root : Option (Node T)

/-- A default-constructed empty tree, mirroring tree() : _root(nullptr). -/
def Tree.empty {T : Type} : Tree T := ⟨none⟩

mutual

/-- Number of nodes in a subtree: the node itself plus all descendants. -/
def Node.size {T : Type} : Node T → Nat
| .mk _ _ cs => 1 + sizeL cs

/-- Total number of nodes across a list of subtrees. -/
def sizeL {T : Type} : List (Node T) → Nat
| [] => 0
| c :: cs => Node.size c + sizeL cs

end

theorem sizeL_append {T : Type} (l₁ l₂ : List (Node T)) :
    sizeL (l₁ ++ l₂) = sizeL l₁ + sizeL l₂ := by
  induction l₁ with
  | nil => simp [sizeL]
  | cons c cs ih => simp [sizeL, ih]; omega

theorem sizeL_reverse {T : Type} (l : List (Node T)) :
    sizeL l.reverse = sizeL l := by
  induction l with
  | nil => rfl
  | cons c cs ih => simp [sizeL, List.reverse_cons, sizeL_append, ih]; omega

/-- Pushing a list of elements one by one onto a stack represented as a
list with its head on top.  Mirrors a C++ loop pushing each element of a
range onto a std::stack in order. -/
def pushAll {α : Type} (l s : List α) : List α :=
  l.foldl (fun acc x => x :: acc) s

theorem sizeL_step {T : Type} (n : Node T) (rest : List (Node T)) :
    sizeL (n.children.reverse ++ rest) < sizeL (n :: rest) := by
  cases n with
  | mk d p cs =>
    simp only [Node.children, sizeL, Node.size, sizeL_append, sizeL_reverse]
    omega

theorem sizeL_cons_step {T : Type} (n : Node T) (rest : List (Node T)) :
    sizeL (n.children ++ rest) < sizeL (n :: rest) := by
  cases n with
  | mk d p cs =>
    simp only [Node.children, sizeL, Node.size, sizeL_append]
    omega

theorem pushAll_eq {α : Type} (l : List α) : ∀ s : List α, pushAll l s = l.reverse ++ s := by
  induction l with
  | nil => intro s; rfl
  | cons x xs ih =>
    intro s
    show pushAll xs (x :: s) = (x :: xs).reverse ++ s
    rw [ih (x :: s)]
    simp

/-- The cursor obtained from tree::begin(): the iterator constructor
pushes the root onto the empty stack when the root is not null. -/
def Tree.beginCur {T : Type} (t : Tree T) : List (Node T) :=
  match t.root with
  | none => []
  | some r => [r]

/-- The cursor obtained from tree::end(): the iterator constructor is
given a null node, so the stack stays empty. -/
def Tree.endCur {T : Type} : List (Node T) := ([] : List (Node T))

/-- Iterator equality, mirroring _iterator::operator==, which compares
the two stacks; std::stack equality compares elementwise with
node::operator==, i.e. by payload. -/
def cursorEq {T : Type} (eqT : T → T → Bool) : List (Node T) → List (Node T) → Bool
| [], [] => true
| a :: as, b :: bs => nodeEq eqT a b && cursorEq eqT as bs
| _, _ => false

/-- One advance of the cursor, mirroring _iterator::operator++: it reads
and pops the top of the stack unconditionally — undefined on an empty
stack, rendered here as none — and pushes the popped node's children in
reverse order (a loop from rbegin to rend). -/
def advanceCursor {T : Type} : List (Node T) → Option (List (Node T))
| [] => none
| n :: rest => some (pushAll n.children.reverse rest)

/-- The work-list loop of tree::search from part_000 (identical to the
loop of tree.h operator[]): pop the top of the stack, return it if its
payload equals the target, otherwise push its children in FORWARD order
(a plain range-for loop) and continue. -/
def searchLoop {T : Type} (eqT : T → T → Bool) (target : T) : List (Node T) → Option (Node T)
| [] => none
| n :: rest =>
  if eqT n.data target then some n
  else searchLoop eqT target (pushAll n.children rest)
termination_by s => sizeL s
decreasing_by
  rw [pushAll_eq]
  exact sizeL_step _ _

/-- Search over the whole tree, mirroring tree::operator[] of tree.h,
which returns null for a null root, and tree::search of part_000, whose
root is never null: seed the stack with the root and run the loop. -/
def Tree.search {T : Type} (eqT : T → T → Bool) (t : Tree T) (target : T) : Option (Node T) :=
  match t.root with
  | none => none
  | some r => searchLoop eqT target [r]

/-- The sequence of nodes yielded by repeatedly dereferencing and
advancing the iterator until its stack is empty: each step yields the
top of the stack, pops it and pushes its children in reverse order,
exactly as _iterator::operator* and _iterator::operator++ do. -/
def visitSeq {T : Type} : List (Node T) → List (Node T)
| [] => []
| n :: rest => n :: visitSeq (pushAll n.children.reverse rest)
termination_by s => sizeL s
decreasing_by
  rw [pushAll_eq, List.reverse_reverse]
  exact sizeL_cons_step _ _

mutual

/-- Left-to-right pre-order listing of a subtree: the node first, then
the listings of its children from first to last. -/
def preorder {T : Type} : Node T → List (Node T)
| .mk d p cs => .mk d p cs :: preorderL cs

/-- Concatenated left-to-right pre-order listings of a list of subtrees. -/
def preorderL {T : Type} : List (Node T) → List (Node T)
| [] => []
| c :: cs => preorder c ++ preorderL cs

end

mutual

/-- Mirrored pre-order listing of a subtree: the node first, then the
listings of its children from LAST to first.  This is the visitation
order of the search loop, which pushes children in forward order onto a
last-in-first-out stack. -/
def preorderR {T : Type} : Node T → List (Node T)
| .mk d p cs => .mk d p cs :: preorderRL cs

/-- Concatenated mirrored pre-order listings, last subtree first. -/
def preorderRL {T : Type} : List (Node T) → List (Node T)
| [] => []
| c :: cs => preorderRL cs ++ preorderR c

end

/-- Reachability through child edges: the nodes of the subtree rooted at
the first argument. -/
inductive Reaches {T : Type} : Node T → Node T → Prop
| refl (n : Node T) : Reaches n n
| step {a b c : Node T} : b ∈ a.children → Reaches b c → Reaches a c

theorem preorderL_eq_flatMap {T : Type} (cs : List (Node T)) :
    preorderL cs = cs.flatMap preorder := by
  induction cs with
  | nil => simp [preorderL]
  | cons c cs ih => simp [preorderL, ih]

theorem preorderRL_eq_flatMap {T : Type} (cs : List (Node T)) :
    preorderRL cs = cs.reverse.flatMap preorderR := by
  induction cs with
  | nil => simp [preorderRL]
  | cons c cs ih => simp [preorderRL, ih]

theorem Node.size_pos {T : Type} (n : Node T) : 0 < Node.size n := by
  cases n with
  | mk d p cs => simp only [Node.size]; omega

theorem searchLoop_eq {T : Type} (eqT : T → T → Bool) (x : T) :
    ∀ s : List (Node T),
      searchLoop eqT x s = (s.flatMap preorderR).find? (fun m => eqT m.data x)
| [] => by simp [searchLoop]
| (Node.mk d p cs) :: rest => by
  rw [searchLoop]
  by_cases hx : eqT (Node.mk d p cs).data x = true
  · rw [if_pos hx]
    rw [List.flatMap_cons, preorderR, List.cons_append]
    rw [List.find?_cons_of_pos (p := fun m : Node T => eqT m.data x) _ hx]
  · rw [if_neg hx]
    rw [searchLoop_eq eqT x (pushAll (Node.mk d p cs).children rest), pushAll_eq]
    rw [List.flatMap_cons, preorderR, List.cons_append]
    rw [List.find?_cons_of_neg (p := fun m : Node T => eqT m.data x) _ hx]
    rw [preorderRL_eq_flatMap, List.flatMap_append]
    simp [Node.children]
termination_by s => sizeL s
decreasing_by
  rw [pushAll_eq]
  exact sizeL_step (Node.mk d p cs) rest

theorem visitSeq_eq {T : Type} :
    ∀ s : List (Node T), visitSeq s = s.flatMap preorder
| [] => by simp [visitSeq]
| (Node.mk d p cs) :: rest => by
  rw [visitSeq]
  simp only [Node.children]
  rw [visitSeq_eq (pushAll cs.reverse rest)]
  rw [pushAll_eq, List.reverse_reverse, List.flatMap_append, List.flatMap_cons, preorder]
  rw [← preorderL_eq_flatMap]
  simp
termination_by s => sizeL s
decreasing_by
  rw [pushAll_eq, List.reverse_reverse]
  exact sizeL_cons_step (Node.mk d p cs) rest

theorem size_le_sizeL_of_mem {T : Type} {c : Node T} {cs : List (Node T)} (h : c ∈ cs) :
    Node.size c ≤ sizeL cs := by
  induction cs with
  | nil => cases h
  | cons a as ih =>
    rcases List.mem_cons.mp h with rfl | h2
    · simp only [sizeL]; omega
    · have := ih h2; simp only [sizeL]; omega

theorem mem_preorderL {T : Type} (cs : List (Node T)) (m : Node T) :
    m ∈ preorderL cs ↔ ∃ c ∈ cs, m ∈ preorder c := by
  rw [preorderL_eq_flatMap]
  simp [List.mem_flatMap]

theorem mem_preorderR_aux {T : Type} :
    ∀ (k : Nat) (n : Node T), Node.size n ≤ k →
      ∀ (m : Node T), (m ∈ preorderR n ↔ m ∈ preorder n)
| 0, n, h, _ => absurd h (by have := Node.size_pos n; omega)
| Nat.succ k, Node.mk d p cs, h, m => by
  have hsz : ∀ c ∈ cs, Node.size c ≤ k := by
    intro c hc
    have h1 := size_le_sizeL_of_mem hc
    simp only [Node.size] at h
    omega
  rw [preorderR, preorder, preorderRL_eq_flatMap, preorderL_eq_flatMap]
  simp only [List.mem_cons, List.mem_flatMap, List.mem_reverse]
  constructor
  · rintro (rfl | ⟨c, hc, hm⟩)
    · exact Or.inl rfl
    · exact Or.inr ⟨c, hc, (mem_preorderR_aux k c (hsz c hc) m).mp hm⟩
  · rintro (rfl | ⟨c, hc, hm⟩)
    · exact Or.inl rfl
    · exact Or.inr ⟨c, hc, (mem_preorderR_aux k c (hsz c hc) m).mpr hm⟩

theorem mem_preorderR_iff {T : Type} (n m : Node T) :
    m ∈ preorderR n ↔ m ∈ preorder n :=
  mem_preorderR_aux (Node.size n) n (Nat.le_refl _) m

theorem length_preorderL_aux {T : Type} :
    ∀ (k : Nat) (cs : List (Node T)), sizeL cs ≤ k → (preorderL cs).length = sizeL cs
| _, [], _ => by simp [preorderL, sizeL]
| 0, (Node.mk d p cs0) :: cs, h => by
  exfalso
  have := Node.size_pos (Node.mk d p cs0)
  simp only [sizeL] at h
  omega
| Nat.succ k, (Node.mk d p cs0) :: cs, h => by
  have hh : Node.size (Node.mk d p cs0) + sizeL cs ≤ Nat.succ k := h
  simp only [Node.size] at hh
  rw [preorderL, preorder]
  simp only [List.length_append, List.length_cons]
  rw [length_preorderL_aux k cs0 (by omega)]
  rw [length_preorderL_aux k cs (by omega)]
  simp only [sizeL, Node.size]
  omega

theorem length_preorder {T : Type} (n : Node T) :
    (preorder n).length = Node.size n := by
  cases n with
  | mk d p cs =>
    rw [preorder]
    simp only [List.length_cons]
    rw [length_preorderL_aux (sizeL cs) cs (Nat.le_refl _)]
    simp only [Node.size]
    omega

theorem self_mem_preorder {T : Type} (n : Node T) : n ∈ preorder n := by
  cases n with
  | mk d p cs =>
    rw [preorder]
    exact List.mem_cons_self _ _

theorem reaches_of_mem_preorder_aux {T : Type} :
    ∀ (k : Nat) (n : Node T), Node.size n ≤ k →
      ∀ (m : Node T), m ∈ preorder n → Reaches n m
| 0, n, h, _, _ => absurd h (by have := Node.size_pos n; omega)
| Nat.succ k, Node.mk d p cs, h, m, hm => by
  have hsz : ∀ c ∈ cs, Node.size c ≤ k := by
    intro c hc
    have h1 := size_le_sizeL_of_mem hc
    simp only [Node.size] at h
    omega
  rw [preorder] at hm
  rcases List.mem_cons.mp hm with rfl | hm2
  · exact Reaches.refl _
  · rcases (mem_preorderL cs m).mp hm2 with ⟨c, hc, hmc⟩
    exact Reaches.step (by simpa [Node.children] using hc)
      (reaches_of_mem_preorder_aux k c (hsz c hc) m hmc)

theorem mem_preorder_step {T : Type} {a b m : Node T}
    (hb : b ∈ a.children) (hm : m ∈ preorder b) : m ∈ preorder a := by
  cases a with
  | mk d p cs =>
    rw [preorder]
    refine List.mem_cons_of_mem _ ?_
    refine (mem_preorderL cs m).mpr ⟨b, ?_, hm⟩
    simpa [Node.children] using hb

theorem mem_preorder_of_reaches {T : Type} {n m : Node T}
    (h : Reaches n m) : m ∈ preorder n := by
  induction h with
  | refl a => exact self_mem_preorder a
  | step hb _ ih => exact mem_preorder_step hb ih

theorem mem_preorder_iff_reaches {T : Type} (n m : Node T) :
    m ∈ preorder n ↔ Reaches n m :=
  ⟨reaches_of_mem_preorder_aux (Node.size n) n (Nat.le_refl _) m,
   mem_preorder_of_reaches⟩

/-- Iterated cursor advance: k applications of advanceCursor, propagating
the undefined (none) outcome. -/
def advanceN {T : Type} : Nat → Option (List (Node T)) → Option (List (Node T))
| 0, s => s
| k + 1, s =>
  match s with
  | none => none
  | some st => advanceN k (advanceCursor st)

/-- Element equality for Nat, the == of the element type. -/
def natEq : Nat → Nat → Bool := fun a b => a == b

/-- Element inequality for Nat, the != of the element type. -/
def natNe : Nat → Nat → Bool := fun a b => a != b

/-- A degenerate comparison in which both == and != answer true for all
arguments: it satisfies the __is_cmp concept, which only asks that both
operators return something convertible to bool. -/
def trueRel : Nat → Nat → Bool := fun _ _ => true

/-- Example tree for the pre-order claim: root R (payload 1) with
children A (2) and B (5); A has children C (3) and D (4). -/
def nodeC : Node Nat := .mk 3 none []

def nodeD : Node Nat := .mk 4 none []

def nodeA : Node Nat := .mk 2 none [nodeC, nodeD]

def nodeB : Node Nat := .mk 5 none []

def nodeR : Node Nat := .mk 1 none [nodeA, nodeB]

def treeEx : Tree Nat := ⟨some nodeR⟩

/-- Example tree for the search-order claim: the root (payload 0) has a
left child with payload 1 that itself has one child, and a right child
with payload 1 and no children.  Two nodes share payload 1. -/
def nodeA1 : Node Nat := .mk 1 none [.mk 2 none []]

def nodeB1 : Node Nat := .mk 1 none []

def nodeR1 : Node Nat := .mk 0 none [nodeA1, nodeB1]

def treeC1 : Tree Nat := ⟨some nodeR1⟩

/-- Example node whose children carry the payloads 1, 2, 2, 3. -/
def n41 : Node Nat := .mk 1 none []

def n42a : Node Nat := .mk 2 none []

def n42b : Node Nat := .mk 2 none []

def n43 : Node Nat := .mk 3 none []

def root4 : Node Nat := .mk 0 none [n41, n42a, n42b, n43]

/-- Example node with a single child of payload 1. -/
def root6 : Node Nat := .mk 0 none [.mk 1 none []]

/-- Example node with no children. -/
def a0 : Node Nat := .mk 0 none []

/-- Claim C5: positional child access on a node with k children fails
with the index-out-of-range error for every index i that is at least k,
and for every i below k succeeds, returning the i-th child in sibling
(insertion) order. -/
theorem claim_C5 (T : Type) (a : Node T) (i : Nat) :
    (a.children.length ≤ i → Node.childAt a i = Except.error "index out of range")
    ∧ (∀ h : i < a.children.length,
        Node.childAt a i = Except.ok (a.children.get ⟨i, h⟩)) := by
  constructor
  · intro h
    rw [Node.childAt, dif_pos h]
  · intro h
    rw [Node.childAt, dif_neg (by omega)]

/-- Claim C5 witness: on the node with four children, index 7 errors and
index 1 returns the second child. -/
theorem claim_C5_witness :
    Node.childAt root4 7 = Except.error "index out of range"
    ∧ Node.childAt root4 1 = Except.ok n42a :=
  ⟨(claim_C5 Nat root4 7).1 (by decide), (claim_C5 Nat root4 1).2 (by decide)⟩

/-- Claim C7: a default-constructed empty tree has root none, its begin
cursor equals its end cursor (both as stacks and under the elementwise
iterator comparison), and search returns none for every value instead of
raising. -/
theorem claim_C7 (T : Type) (eqT : T → T → Bool) (x : T) :
    (Tree.empty : Tree T).root = none
    ∧ Tree.beginCur (Tree.empty : Tree T) = Tree.endCur
    ∧ cursorEq eqT (Tree.beginCur (Tree.empty : Tree T)) Tree.endCur = true
    ∧ Tree.search eqT Tree.empty x = none :=
  ⟨rfl, rfl, rfl, rfl⟩

/-- Claim C8: node equality holds exactly when the payloads are equal
under the element equality; it depends only on the payloads, never on
the children lists or the parent references, so two nodes with equal
payloads but different subtrees compare equal. -/
theorem claim_C8 (T : Type) (eqT : T → T → Bool) (a b : Node T) :
    (nodeEq eqT a b = true ↔ eqT a.data b.data = true)
    ∧ (∀ a2 b2 : Node T, a2.data = a.data → b2.data = b.data →
        nodeEq eqT a2 b2 = nodeEq eqT a b)
    ∧ (∀ (d e : T) (p1 p2 : Option (Node T)) (cs1 cs2 : List (Node T)),
        nodeEq eqT (Node.mk d p1 cs1) (Node.mk e p2 cs2) = eqT d e) := by
  refine ⟨Iff.rfl, ?_, ?_⟩
  · intro a2 b2 ha hb
    rw [nodeEq, nodeEq, ha, hb]
  · intro d e p1 p2 cs1 cs2
    rw [nodeEq]
    rfl

/-- Claim C8 witness: nodes with equal payloads and different subtrees
compare equal, and the comparison outcome is unchanged when both
children lists are replaced. -/
theorem claim_C8_witness :
    nodeEq natEq (Node.mk 1 none []) (Node.mk 1 none [n41])
      = nodeEq natEq (Node.mk 1 none [n41, n43]) (Node.mk 1 none [])
    ∧ nodeEq natEq (Node.mk 7 none []) (Node.mk 7 none [n41]) = true :=
  ⟨(claim_C8 Nat natEq (Node.mk 1 none [n41, n43]) (Node.mk 1 none [])).2.1
      (Node.mk 1 none []) (Node.mk 1 none [n41]) rfl rfl,
   ((claim_C8 Nat natEq (Node.mk 7 none []) (Node.mk 7 none [n41])).2.2
      7 7 none none [] [n41]).trans (by decide)⟩

/-- Claim C9: advancing the cursor is defined exactly at non-end
positions.  At a non-empty work list the advance pops the top node and
pushes its children in reverse order, so the new stack is the children,
leftmost on top, followed by the rest; at the end position (empty work
list) the code would pop an empty stack, so the result is undefined,
rendered as none. -/
theorem claim_C9 (T : Type) (n : Node T) (rest : List (Node T)) :
    advanceCursor ([] : List (Node T)) = none
    ∧ advanceCursor (n :: rest) = some (n.children ++ rest) := by
  constructor
  · rfl
  · rw [advanceCursor, pushAll_eq, List.reverse_reverse]

/-- Claim C10 counterexample: with an element type whose == and != both
constantly answer true — allowed by the comparability concept, which
only requires bool-convertible results — the part_000 node inequality
(which forwards to the element !=) is NOT the negation of the node
equality. -/
theorem claim_C10_counterexample :
    ¬ (nodeNe trueRel (Node.mk 0 none []) (Node.mk 0 none [])
        = !(nodeEq trueRel (Node.mk 0 none []) (Node.mk 0 none []))) := by
  decide

/-- Claim C10 amended: the tree.h draft inequality is literally the
negation of the equality for every element type; the part_000 draft
inequality forwards to the element != and therefore agrees with the
negation of the node equality exactly for element types whose != is the
negation of their ==. -/
theorem claim_C10_amended (T : Type) (eqT neqT : T → T → Bool) (a b : Node T) :
    (nodeNeH eqT a b = !(nodeEq eqT a b))
    ∧ ((∀ x y, neqT x y = !(eqT x y)) → nodeNe neqT a b = !(nodeEq eqT a b)) := by
  refine ⟨rfl, ?_⟩
  intro hcoh
  rw [nodeNe, nodeEq, hcoh]

/-- Claim C10 witness: for Nat with its standard == and !=, the part_000
inequality is the negation of the equality. -/
theorem claim_C10_witness :
    nodeNe natNe (Node.mk 3 none []) (Node.mk 4 none [])
      = !(nodeEq natEq (Node.mk 3 none []) (Node.mk 4 none [])) :=
  (claim_C10_amended Nat natEq natNe (Node.mk 3 none []) (Node.mk 4 none [])).2
    (fun _ _ => rfl)

/-- Claim C2 counterexample: appending a node to itself — the node is
trivially reachable from itself — does NOT fail and does NOT leave the
tree unchanged: node::append has no ancestry check and no error path, it
unconditionally sets the child's parent and pushes the child. -/
theorem claim_C2_counterexample :
    Reaches a0 a0 ∧ Node.append a0 a0 ≠ a0 := by
  refine ⟨Reaches.refl a0, ?_⟩
  intro h
  simp [Node.append, a0] at h

/-- Claim C2 amended: append performs no cycle check and never fails:
for all nodes a and b, including b a descendant of a or a itself,
a.append(b) succeeds, keeps a's payload and parent, and appends a copy
of b (with its parent field set to a) at the end of a's children, so the
children count grows by one and the tree IS modified.  Because children
are stored by value, a copy is appended and no reference cycle arises. -/
theorem claim_C2_amended (T : Type) (a b : Node T) (h : Reaches a b) :
    (Node.append a b).data = a.data
    ∧ (Node.append a b).parent = a.parent
    ∧ (Node.append a b).children = a.children ++ [Node.mk b.data (some a) b.children]
    ∧ (Node.append a b).children.length = a.children.length + 1 := by
  cases a with
  | mk d p cs =>
    refine ⟨rfl, rfl, rfl, ?_⟩
    simp [Node.append, Node.children]

/-- Claim C2 witness: appending the childless node to itself grows its
child count from 0 to 1. -/
theorem claim_C2_witness :
    (Node.append a0 a0).children.length = a0.children.length + 1 :=
  (claim_C2_amended Nat a0 a0 (Reaches.refl a0)).2.2.2

/-- Claim C4 counterexample: on children valued [1, 2, 2, 3], removing a
node valued 2 leaves children valued [1, 3], not [1, 2, 3]: the remove
of the source (the remove(value) member of the standard containers)
erases every structurally equal child, not only the first one. -/
theorem claim_C4_counterexample :
    (Node.removeChild natEq root4 (Node.mk 2 none [])).children.map Node.data = [1, 3]
    ∧ (Node.removeChild natEq root4 (Node.mk 2 none [])).children.map Node.data ≠ [1, 2, 3] := by
  constructor
  · rfl
  · decide

/-- Claim C4 amended: remove erases EVERY child structurally equal (by
element equality) to the argument, keeping the remaining children in
order, and returns no success indication (the member returns void); when
no child is structurally equal it changes nothing — absence is a no-op,
not an error.  On children valued [1, 2, 2, 3], removing a node valued 2
leaves [1, 3]. -/
theorem claim_C4_amended (T : Type) (eqT : T → T → Bool) (a c : Node T) :
    ((∀ m ∈ a.children, nodeEq eqT m c = false) → Node.removeChild eqT a c = a)
    ∧ (∀ m ∈ (Node.removeChild eqT a c).children, nodeEq eqT m c = false)
    ∧ List.Sublist (Node.removeChild eqT a c).children a.children
    ∧ (Node.removeChild eqT a c).data = a.data
    ∧ (Node.removeChild eqT a c).parent = a.parent
    ∧ (Node.removeChild natEq root4 (Node.mk 2 none [])).children.map Node.data = [1, 3] := by
  cases a with
  | mk d p cs =>
    refine ⟨?_, ?_, ?_, rfl, rfl, rfl⟩
    · intro hall
      have hf : ∀ m ∈ cs, (!(nodeEq eqT m c)) = true := by
        intro m hm
        simp [hall m (by simpa [Node.children] using hm)]
      rw [Node.removeChild]
      simp only [Node.children, Node.data, Node.parent]
      rw [List.filter_eq_self.mpr hf]
    · intro m hm
      simp only [Node.removeChild, Node.children, List.mem_filter] at hm
      simpa using hm.2
    · simp only [Node.removeChild, Node.children]
      exact List.filter_sublist cs

/-- Claim C4 witness: removing a node valued 9, which matches no child of
the [1, 2, 2, 3] node, leaves that node unchanged. -/
theorem claim_C4_witness :
    Node.removeChild natEq root4 (Node.mk 9 none []) = root4 :=
  (claim_C4_amended Nat natEq root4 (Node.mk 9 none [])).1 (by decide)

/-- Claim C6 counterexample: on a node whose single child has payload 1,
asking for the index of a node valued 5 — structurally equal to no child
— returns the child count 1 (the past-the-end position) as a plain
number; the operation's return type carries no none at all. -/
theorem claim_C6_counterexample :
    Node.index natEq root6 (Node.mk 5 none []) = root6.children.length
    ∧ root6.children.length = 1 := by
  constructor
  · rfl
  · rfl

/-- Claim C6 amended: index returns the 0-based position of the FIRST
child structurally equal (by element equality) to the argument — every
earlier child compares unequal — and, when no child is structurally
equal, returns the number of children (one past the last valid
position) rather than none.  On children valued [1, 2, 2, 3], the index
of a node valued 2 is 1. -/
theorem claim_C6_amended (T : Type) (eqT : T → T → Bool) (a c : Node T) :
    ((∃ m ∈ a.children, nodeEq eqT m c = true) →
      Node.index eqT a c < a.children.length
      ∧ (∀ h : Node.index eqT a c < a.children.length,
          nodeEq eqT (a.children.get ⟨Node.index eqT a c, h⟩) c = true)
      ∧ (∀ j, ∀ hj : j < a.children.length, j < Node.index eqT a c →
          nodeEq eqT (a.children.get ⟨j, hj⟩) c = false))
    ∧ ((∀ m ∈ a.children, nodeEq eqT m c = false) →
        Node.index eqT a c = a.children.length)
    ∧ Node.index natEq root4 (Node.mk 2 none []) = 1 := by
  refine ⟨?_, ?_, rfl⟩
  · intro hex
    refine ⟨List.findIdx_lt_length_of_exists hex, ?_, ?_⟩
    · intro h
      have := @List.findIdx_getElem (Node T)
        (fun m : Node T => nodeEq eqT m c) a.children h
      simpa [List.get_eq_getElem, Node.index] using this
    · intro j hj hlt
      have := @List.not_of_lt_findIdx (Node T)
        (fun m : Node T => nodeEq eqT m c) a.children j hlt
      simp only [List.get_eq_getElem]
      simpa using this
  · intro hall
    exact List.findIdx_eq_length_of_false hall

/-- Claim C6 witness: on the [1, 2, 2, 3] node, the index of a node
valued 2 is a valid position whose child compares equal, and the index
of a node valued 9 is the child count 4. -/
theorem claim_C6_witness :
    Node.index natEq root4 (Node.mk 2 none []) < root4.children.length
    ∧ Node.index natEq root4 (Node.mk 9 none []) = root4.children.length :=
  ⟨((claim_C6_amended Nat natEq root4 (Node.mk 2 none [])).1
      ⟨n42a, by exact List.Mem.tail _ (List.Mem.head _), by decide⟩).1,
   (claim_C6_amended Nat natEq root4 (Node.mk 9 none [])).2.1 (by decide)⟩

/-- Claim C1 counterexample: searching the two-match tree for payload 1
returns the RIGHT child (which has no children), while the first node
with payload 1 in left-to-right pre-order is the left child (which has
one child): search does not return the pre-order-first match, because
the loop pushes children in forward order, not reverse. -/
theorem claim_C1_counterexample :
    Tree.search natEq treeC1 1 ≠ (preorder nodeR1).find? (fun m => natEq m.data 1) := by
  have h1 : Tree.search natEq treeC1 1 = some nodeB1 := by
    simp [Tree.search, treeC1, searchLoop, pushAll, natEq, Node.data,
      Node.children, nodeR1, nodeA1, nodeB1]
  have h2 : (preorder nodeR1).find? (fun m => natEq m.data 1) = some nodeA1 := by
    simp [preorder, preorderL, nodeR1, nodeA1, nodeB1, natEq, Node.data]
  rw [h1, h2]
  intro h
  injection h with h
  simp [nodeA1, nodeB1] at h

/-- Claim C1 amended: search returns some node whose payload equals x
whenever the tree contains at least one such node, returns none when it
contains none, and when several nodes share payload x it returns the one
visited first in the traversal that visits a parent before its children
but siblings RIGHT to left: the work-list loop pushes each popped node's
children in forward order onto a last-in-first-out stack, so they pop in
reversed sibling order. -/
theorem claim_C1_amended (T : Type) (eqT : T → T → Bool) (r : Node T) (x : T) :
    Tree.search eqT ⟨some r⟩ x = (preorderR r).find? (fun m => eqT m.data x)
    ∧ ((∃ m, Reaches r m ∧ eqT m.data x = true) →
        ∃ res, Tree.search eqT ⟨some r⟩ x = some res ∧ eqT res.data x = true)
    ∧ ((∀ m, Reaches r m → eqT m.data x = false) →
        Tree.search eqT ⟨some r⟩ x = none) := by
  have hs : Tree.search eqT ⟨some r⟩ x = (preorderR r).find? (fun m => eqT m.data x) := by
    show searchLoop eqT x [r] = _
    rw [searchLoop_eq]
    simp
  refine ⟨hs, ?_, ?_⟩
  · rintro ⟨m, hr, hx⟩
    have hm : m ∈ preorderR r := (mem_preorderR_iff r m).mpr (mem_preorder_of_reaches hr)
    have hsome : ((preorderR r).find? (fun m => eqT m.data x)).isSome :=
      List.find?_isSome.mpr ⟨m, hm, hx⟩
    rcases Option.isSome_iff_exists.mp hsome with ⟨res, hres⟩
    exact ⟨res, hs.trans hres, List.find?_some (p := fun m : Node T => eqT m.data x) hres⟩
  · intro hall
    rw [hs]
    apply List.find?_eq_none.mpr
    intro m hm
    have h2 := hall m ((mem_preorder_iff_reaches r m).mp ((mem_preorderR_iff r m).mp hm))
    simp [h2]

/-- Claim C1 witness: the two-match tree contains nodes with payload 1
and search returns one of them; searching for the absent payload 9
returns none. -/
theorem claim_C1_witness :
    (∃ res, Tree.search natEq treeC1 1 = some res ∧ natEq res.data 1 = true)
    ∧ Tree.search natEq treeC1 9 = none := by
  constructor
  · exact (claim_C1_amended Nat natEq nodeR1 1).2.1
      ⟨nodeB1,
       Reaches.step (by exact List.Mem.tail _ (List.Mem.head _)) (Reaches.refl _),
       by decide⟩
  · refine (claim_C1_amended Nat natEq nodeR1 9).2.2 ?_
    intro m hm
    have h3 := mem_preorder_of_reaches hm
    have h4 : preorder nodeR1 = [nodeR1, nodeA1, Node.mk 2 none [], nodeB1] := by
      simp [preorder, preorderL, nodeR1, nodeA1, nodeB1]
    rw [h4] at h3
    simp only [List.mem_cons, List.not_mem_nil, or_false] at h3
    rcases h3 with rfl | rfl | rfl | rfl
    · decide
    · decide
    · decide
    · decide

/-- Claim C3: iterating the cursor from begin visits, for every tree
with a root, exactly the left-to-right pre-order listing of the root
(parent before children, siblings left to right), whose members are
precisely the reachable nodes and whose length is the node count; on the
concrete tree R[A[C, D], B] the cursor yields the payloads 1, 2, 3, 4, 5
— that is R, A, C, D, B — and reaches the end cursor after exactly five
advances and not before, as the listed intermediate stacks show. -/
theorem claim_C3 :
    (∀ (T : Type) (r : Node T), visitSeq (Tree.beginCur ⟨some r⟩) = preorder r)
    ∧ (∀ (T : Type) (r m : Node T),
        (m ∈ visitSeq (Tree.beginCur ⟨some r⟩) ↔ Reaches r m))
    ∧ (∀ (T : Type) (r : Node T),
        (visitSeq (Tree.beginCur ⟨some r⟩)).length = Node.size r)
    ∧ (visitSeq (Tree.beginCur treeEx)).map Node.data = [1, 2, 3, 4, 5]
    ∧ advanceN 1 (some (Tree.beginCur treeEx)) = some [nodeA, nodeB]
    ∧ advanceN 2 (some (Tree.beginCur treeEx)) = some [nodeC, nodeD, nodeB]
    ∧ advanceN 3 (some (Tree.beginCur treeEx)) = some [nodeD, nodeB]
    ∧ advanceN 4 (some (Tree.beginCur treeEx)) = some [nodeB]
    ∧ advanceN 5 (some (Tree.beginCur treeEx)) = some Tree.endCur := by
  have h1 : ∀ (T : Type) (r : Node T), visitSeq (Tree.beginCur ⟨some r⟩) = preorder r := by
    intro T r
    show visitSeq [r] = preorder r
    rw [visitSeq_eq]
    simp
  refine ⟨h1, ?_, ?_, ?_, rfl, rfl, rfl, rfl, rfl⟩
  · intro T r m
    rw [h1]
    exact mem_preorder_iff_reaches r m
  · intro T r
    rw [h1, length_preorder]
  · show (visitSeq (Tree.beginCur ⟨some nodeR⟩)).map Node.data = [1, 2, 3, 4, 5]
    rw [h1 Nat nodeR]
    simp [preorder, preorderL, nodeR, nodeA, nodeB, nodeC, nodeD, Node.data]

end Cxx
